import Mathlib

/-!
Verification of the identity extraction and lexical grounding engine of
`orcid_downloader`.  The Python sources are shallowly embedded: character
strings become lists of characters (`Str`), Python's string methods become
executable Lean functions over `Str`, generators become lists, `None`
becomes `Option.none`, and an uncaught exception on a code path is
modelled by an `Option`/`Except` failure value.  Character case mapping
and digit tests are modelled for the ASCII range, which covers every
behaviour the claims exercise.
-/

namespace Orcid

deriving instance DecidableEq for Except

/-- Strings are modelled as lists of characters. -/
abbrev Str := List Char

/-- Whitespace test used by Python's argument-free `split`/`strip`. -/
def isWs (c : Char) : Bool := c.isWhitespace

/-- ASCII model of Python's per-character `lower`. -/
def charLower (c : Char) : Char :=
  if 'A' ≤ c ∧ c ≤ 'Z' then Char.ofNat (c.toNat + 32) else c

/-- ASCII model of Python's per-character `upper`. -/
def charUpper (c : Char) : Char :=
  if 'a' ≤ c ∧ c ≤ 'z' then Char.ofNat (c.toNat - 32) else c

/-- ASCII letter test (Python's `cased` characters, ASCII range). -/
def isAsciiAlpha (c : Char) : Bool :=
  ('A' ≤ c ∧ c ≤ 'Z') ∨ ('a' ≤ c ∧ c ≤ 'z')

/-- Python `s.lower()`. -/
def lowerStr (s : Str) : Str := s.map charLower

/-- Python `s.upper()`. -/
def upperStr (s : Str) : Str := s.map charUpper

/-- Worker for `titleStr`; the flag records whether the previous character
was cased. -/
def titleAux : Bool → Str → Str
  | _, [] => []
  | prev, c :: cs =>
    if isAsciiAlpha c then
      (if prev then charLower c else charUpper c) :: titleAux true cs
    else
      c :: titleAux false cs

/-- Python `s.title()`: the first character of every run of letters is
upper-cased, the rest lower-cased. -/
def titleStr (s : Str) : Str := titleAux false s

/-- Python `s.strip()`: drop whitespace from both ends. -/
def stripWs (s : Str) : Str :=
  ((s.dropWhile isWs).reverse.dropWhile isWs).reverse

/-- Python `s.strip(cs)`: drop characters of `cs` from both ends. -/
def stripChars (cs : List Char) (s : Str) : Str :=
  ((s.dropWhile (· ∈ cs)).reverse.dropWhile (· ∈ cs)).reverse

/-- Python `s.rstrip(cs)`: drop characters of `cs` from the right end. -/
def rstripChars (cs : List Char) (s : Str) : Str :=
  (s.reverse.dropWhile (· ∈ cs)).reverse

/-- Python `s.removesuffix(t)` (case-sensitive). -/
def removeSfx (s t : Str) : Str :=
  if t.isSuffixOf s then s.take (s.length - t.length) else s

/-- Worker for `splitWs`; `acc` holds the reversed current token. -/
def splitWsAux : Str → Str → List Str
  | [], acc => if acc = [] then [] else [acc.reverse]
  | c :: cs, acc =>
    if isWs c then
      if acc = [] then splitWsAux cs [] else acc.reverse :: splitWsAux cs []
    else
      splitWsAux cs (c :: acc)

/-- Python `s.split()`: split on runs of whitespace, dropping empties. -/
def splitWs (s : Str) : List Str := splitWsAux s []

/-- Python `" ".join(ts)`. -/
def joinSp : List Str → Str
  | [] => []
  | [t] => t
  | t :: u :: ts => t ++ ' ' :: joinSp (u :: ts)

/-- Worker for `splitOnChar`; `acc` holds the reversed current piece. -/
def splitOnCharAux (sep : Char) : Str → Str → List Str
  | [], acc => [acc.reverse]
  | c :: cs, acc =>
    if c = sep then acc.reverse :: splitOnCharAux sep cs []
    else splitOnCharAux sep cs (c :: acc)

/-- Python `s.split(sep)` for a one-character separator (keeps empties). -/
def splitOnChar (sep : Char) (s : Str) : List Str := splitOnCharAux sep s []

/-- Python `name.replace(" ,", ",")`: every space-comma pair becomes a
comma, scanning left to right without rescanning. -/
def replaceSpaceComma : Str → Str
  | [] => []
  | [c] => [c]
  | ' ' :: ',' :: cs => ',' :: replaceSpaceComma cs
  | c :: d :: cs => c :: replaceSpaceComma (d :: cs)

/-- Python `s.isnumeric()` (ASCII digits). -/
def isNumericStr (s : Str) : Bool := !s.isEmpty && s.all (fun c => c.isDigit)

/-! ## `name_utils.clean_name` and `name_utils._uncomma` -/

/-- The credential suffix blocklist of `clean_name`'s loop, in source
order. -/
def CLEAN_NAME_SUFFIX_BLOCKLIST : List Str :=
  [ "(dr)".data, "(dr.)".data, ", m.d.".data, ", phd".data, ", md".data,
    ", mph".data, ", ph.d.".data, ", ms".data ]

/-- The module-level `suffixes` set of `name_utils`. -/
def suffixes : List Str :=
  [ "phd".data, "md".data, "mph".data, "mba".data, "msc".data,
    "d. m. d.".data, "facs".data, "pharmd".data, "frsc".data, "rn".data,
    "edd".data ]

/-- The ASCII lower-case alphabet (`string.ascii_lowercase`). -/
def asciiLowercase : Str := "abcdefghijklmnopqrstuvwxyz".data

/-- The module-level `allowed_suffixes` set of `name_utils`: generational
suffixes plus every single letter, dotted or not.  (Its membership test
guards a `pass`, so it does not change behaviour; it is kept for
fidelity.) -/
def allowed_suffixes : List Str :=
  [ "jr".data, "iii".data, "ii".data, "sr".data ]
    ++ asciiLowercase.map (fun c => [c, '.'])
    ++ asciiLowercase.map (fun c => [c])

/-- `name_utils._uncomma`: reorder a `"Family, Given"` form and drop a
recognised certification after a comma.  Both conditional reassignments
use the token list computed up front, exactly as the source does. -/
def _uncomma (name : Str) : Str :=
  if ',' ∉ name then name
  else
    let name := replaceSpaceComma name
    let parts := (splitWs name).map stripWs
    if parts.length < 2 then name
    else
      let name :=
        if [','].isSuffixOf (parts.headD []) then
          joinSp parts.tail ++ ' ' :: stripWs (rstripChars [','] (parts.headD []))
        else name
      let name :=
        if 2 < parts.length ∧ [','].isSuffixOf (parts.getD (parts.length - 2) []) then
          let ss := stripWs ((lowerStr (parts.getLastD [])).filter (fun c => c ≠ '.'))
          if ss ∈ suffixes then stripWs (rstripChars [','] (joinSp parts.dropLast))
          else name  -- allowed or unknown final parts both leave the name unchanged
        else name
      name

/-- `name_utils.clean_name`.  Note that `lower` is computed once from the
original input and every prefix/suffix test reads it, while the slices
apply to the current `name`, exactly as in the source. -/
def clean_name (name : Str) : Str :=
  let lower := lowerStr name
  let name := if "professor ".data.isPrefixOf lower then stripWs (name.drop 10) else name
  let name := if "prof.".data.isPrefixOf lower then stripWs (name.drop 5) else name
  let name := if "dr.-ing.".data.isPrefixOf lower then name.drop 8 else name
  let name := if "dr ".data.isPrefixOf lower then name.drop 3 else name
  let name := if "dr.".data.isPrefixOf lower then stripWs (name.drop 3) else name
  let name := CLEAN_NAME_SUFFIX_BLOCKLIST.foldl
    (fun n suf => if suf.isSuffixOf lower then stripWs (removeSfx n suf) else n) name
  let name := name.filter (fun c => c ≠ '"')
  let name := stripChars ['/'] name
  let name := stripChars ['\\'] name
  let name := if name = lowerStr name ∨ name = upperStr name then titleStr name else name
  _uncomma name

/-! ## `name_utils.name_to_synonyms` -/

/-- The one-character string `g[0]` for a (nonempty) token `g`. -/
def head1 (s : Str) : Str :=
  match s with
  | [] => []
  | c :: _ => [c]

/-- The two-character string produced by the f-string `f"{g[0]}."`. -/
def dotInit (s : Str) : Str := head1 s ++ ['.']

/-- The sequence of strings yielded by `name_to_synonyms` once the split
has produced `givens ++ [family]` with `givens` nonempty, in yield
order. -/
def synList (givens : List Str) (family : Str) : List Str :=
  let g0 := givens.headD []
  let middles := givens.tail
  let minits := middles.map head1
  let mdots := middles.map dotInit
  let firsts := givens.map head1
  let fdots := firsts.map dotInit
  let firsts_unspaced := firsts.flatten
  let firsts_spaced := joinSp firsts
  let firsts_dotted_unspaced := fdots.flatten
  let firsts_dotted_spaced := joinSp fdots
  let ff := head1 g0
  [ family ++ ',' :: ' ' :: g0,
    family ++ ',' :: ' ' :: joinSp givens ]
  ++ (if 1 < givens.length then
      [ family ++ ',' :: ' ' :: g0 ++ ' ' :: joinSp minits,
        family ++ ',' :: ' ' :: g0 ++ ' ' :: mdots.flatten,
        family ++ ',' :: ' ' :: g0 ++ ' ' :: joinSp mdots,
        g0 ++ ' ' :: joinSp minits ++ ' ' :: family,
        g0 ++ ' ' :: mdots.flatten ++ ' ' :: family,
        g0 ++ ' ' :: joinSp mdots ++ ' ' :: family ]
    else [])
  ++ [ ff ++ ' ' :: family,
       ff ++ '.' :: ' ' :: family,
       firsts_unspaced ++ ' ' :: family,
       firsts_spaced ++ ' ' :: family,
       firsts_dotted_unspaced ++ ' ' :: family,
       firsts_dotted_spaced ++ ' ' :: family,
       family ++ ' ' :: firsts_unspaced,
       family ++ ' ' :: firsts_dotted_unspaced,
       family ++ ' ' :: firsts_spaced,
       family ++ ' ' :: firsts_dotted_spaced,
       family ++ ',' :: ' ' :: firsts_unspaced,
       family ++ ',' :: ' ' :: firsts_dotted_unspaced,
       family ++ ',' :: ' ' :: firsts_spaced,
       family ++ ',' :: ' ' :: firsts_dotted_spaced,
       family ++ ' ' :: ff,
       family ++ ' ' :: ff ++ ['.'],
       family ++ ',' :: ' ' :: ff ++ ['.'],
       family ++ ',' :: ' ' :: ff ]

/-- `name_utils.name_to_synonyms`.  The starred unpacking
`*givens, family = name.split()` raises `ValueError` on a tokenless
input, modelled by `none`; a single-token input returns an empty
sequence; otherwise the yields of `synList` are produced. -/
def name_to_synonyms (name : Str) : Option (List Str) :=
  match splitWs name with
  | [] => none
  | t :: ts =>
    let givens := (t :: ts).dropLast
    let family := (t :: ts).getLast (List.cons_ne_nil t ts)
    if givens = [] then some [] else some (synList givens family)

/-! ## `name_utils.reconcile_aliases` -/

/-- Python `max(aliases, key=len)` over a list: the first element whose
length no later element strictly exceeds. -/
def maxByLen (a : Str) (rest : List Str) : Str :=
  rest.foldl (fun acc x => if acc.length < x.length then x else acc) a

/-- `name_utils.reconcile_aliases` (the `minimum_name_length` parameter,
which defaults to 1 in the source, is passed explicitly). -/
def reconcile_aliases (name : Option Str) (aliases : List Str)
    (minimum_name_length : Nat) : Option Str × List Str :=
  match (match name with
         | some n => if n.length ≤ minimum_name_length then none else some n
         | none => none) with
  | some n => (some n, aliases.filter (fun a => minimum_name_length < a.length))
  | none =>
    match aliases.filter (fun a => minimum_name_length < a.length) with
    | [] => (none, [])
    | a :: rest => (some (maxByLen a rest), (a :: rest).filter (fun x => x ≠ maxByLen a rest))

/-! ## `lexical.ExtendedMatcher` and the grounding entry points of `api` -/

/-- A query match as the grounding engine sees it: only the owning
identity (`match.term.id` in the source) matters to the claims. -/
structure Match where
  id : Str
deriving DecidableEq

/-- The `for synonym in ...` loop of `ExtendedMatcher.get_matches`: the
hits of the first variant with at least one hit, else the empty list. -/
def firstHit (lookup : Str → List Match) : List Str → List Match
  | [] => []
  | s :: ss =>
    match lookup s with
    | [] => firstHit lookup ss
    | m :: ms => m :: ms

/-- `lexical.ExtendedMatcher.get_matches`, parameterised by the exact
index lookup `super().get_matches` (an external collaborator).  `none`
models the `ValueError` escaping from `name_to_synonyms` on a tokenless
query. -/
def get_matches (lookup : Str → List Match) (text : Str) : Option (List Match) :=
  match lookup text with
  | m :: ms => some (m :: ms)
  | [] =>
    match name_to_synonyms text with
    | none => none
    | some syns => some (firstHit lookup syns)

/-- `api.ground_researcher`: delegates to the extended matcher. -/
def ground_researcher (lookup : Str → List Match) (name : Str) : Option (List Match) :=
  get_matches lookup name

/-- `api.ground_researcher_unambiguous`: an identifier only when the
match list has length exactly one. -/
def ground_researcher_unambiguous (lookup : Str → List Match) (name : Str) :
    Option (Option Str) :=
  match ground_researcher lookup name with
  | none => none
  | some ms =>
    some (match ms with
      | [m] => some m.id
      | _ => none)

/-! ## `ror.RORGrounder.ground` -/

/-- The fallback normalisation of `RORGrounder.ground`:
`text.removeprefix("The ").replace(",", "")`. -/
def rorFallbackName (text : Str) : Str :=
  (if "The ".data.isPrefixOf text then text.drop 4 else text).filter (fun c => c ≠ ',')

/-- `ror.RORGrounder.ground`, parameterised by the base grounder
`super().ground` (the external organization lexical index). -/
def RORGrounder.ground {μ : Type} (base : Str → List μ) (text : Str) : List μ :=
  match base text with
  | m :: ms => m :: ms
  | [] => base (rorFallbackName text)

/-! ## The record data model of `api` -/

/-- `api.Work` (the `pubmed` field is the one the claims touch). -/
structure Work where
  pubmed : Str
deriving DecidableEq

/-- `api.Affiliation` (name and database cross-references). -/
structure Affiliation where
  name : Str
  xrefs : List (Str × Str)
deriving DecidableEq

/-- `api.Record`, with the fields the claims touch. -/
structure Record where
  orcid : Str
  name : Str
  aliases : List Str
  xrefs : List (Str × Str)
  works : List Work
  employments : List Affiliation
  educations : List Affiliation
  memberships : List Affiliation
deriving DecidableEq

/-- Python `key in mapping` for the xref dictionaries. -/
def hasKey (xrefs : List (Str × Str)) (k : Str) : Bool :=
  xrefs.any (fun kv => kv.1 = k)

/-- `api.Record.is_high_quality`.  The membership check is commented out
in the source, so memberships do not count. -/
def Record.is_high_quality (r : Record) : Bool :=
  if r.name = [] then false
  else
    (r.employments.any fun e => hasKey e.xrefs "ror".data)
    || (r.educations.any fun e => hasKey e.xrefs "ror".data)
    || !r.works.isEmpty
    || !r.xrefs.isEmpty

/-! ## PubMed identifier standardization (`api._standardize_pubmed`,
`api._get_works`) -/

/-- `api.PUBMED_PREFIXES`, in source order. -/
def PUBMED_PREFIXES : List Str :=
  [ "http://www.ncbi.nlm.nih.gov/pubmed/".data,
    "https://www.ncbi.nlm.nih.gov/pubmed/".data,
    "https://www-ncbi-nlm-nih-gov.proxy.bib.ucl.ac.be:2443/pubmed/".data,
    "http://europepmc.org/abstract/med/".data,
    "https://pubmed.ncbi.nlm.nih.gov/".data,
    "www.ncbi.nlm.nih.gov/pubmed/".data,
    "PMID: ".data,
    "PMID:".data,
    "PubMed PMID: ".data,
    "MEDLINE:".data,
    "[PMID: ".data,
    "PubMed:".data,
    "PubMed ID: ".data,
    "ncbi.nlm.nih.gov/pubmed/".data,
    "PMid:".data,
    "PubMed ".data,
    "PMID".data,
    "PMID ".data ]

/-- The `for x in PUBMED_PREFIXES` loop: on the first matching prefix
whose remainder has a first whitespace token, return that token; a match
with no token falls through to later prefixes, as in the source. -/
def pubmedPrefixLoop : List Str → Str → Option Str
  | [], _ => none
  | x :: xs, p =>
    if x.isPrefixOf p then
      match splitWs (stripWs (p.drop x.length)) with
      | t :: _ => some t
      | [] => pubmedPrefixLoop xs p
    else pubmedPrefixLoop xs p

/-- Digit-string value (most significant first). -/
def digitsToNat (ds : Str) : Nat := ds.foldl (fun n c => 10 * n + (c.toNat - 48)) 0

/-- Model of `int(float(body + "E7"))` for an unsigned decimal mantissa:
`digits`, `digits.digits`, `digits.` or `.digits` scaled by `10^7` and
truncated, computed in exact arithmetic (it agrees with Python's binary
floating point whenever the scaled value is exactly representable, which
holds at every input the claims use); any other mantissa is `none`,
modelling the `ValueError` raised by `float`. -/
def parseDecE7 (body : Str) : Option Nat :=
  let intPart := body.takeWhile (fun c => c.isDigit)
  let rest := body.drop intPart.length
  match rest with
  | [] => if intPart = [] then none else some (digitsToNat intPart * 10 ^ 7)
  | '.' :: frac =>
    if frac.all (fun c => c.isDigit) ∧ (intPart ≠ [] ∨ frac ≠ []) then
      let k := frac.length
      some (if k ≤ 7 then (digitsToNat intPart * 10 ^ k + digitsToNat frac) * 10 ^ (7 - k)
            else digitsToNat intPart * 10 ^ 7 + digitsToNat frac / 10 ^ (k - 7))
    else none
  | _ => none

/-- Worker for `natToStr` (fuel-driven so it computes by reduction). -/
def natToStrAux : Nat → Nat → Str → Str
  | 0, _, acc => acc
  | fuel + 1, n, acc =>
    let d := Char.ofNat (48 + n % 10)
    if n < 10 then d :: acc else natToStrAux fuel (n / 10) (d :: acc)

/-- Decimal rendering of a natural number (Python's `str`). -/
def natToStr (n : Nat) : Str := natToStrAux (n + 1) n []

/-- `api._standardize_pubmed`.  `Except.error` models an uncaught
`ValueError` from the `int(float(...))` branch; `Except.ok none` is the
source's `return None`. -/
def _standardize_pubmed (pubmed : Str) : Except Unit (Option Str) :=
  let pubmed := stripWs (rstripChars ['/'] (stripChars ['.'] (stripWs pubmed)))
  if isNumericStr pubmed then .ok (some pubmed)
  else
    match pubmedPrefixLoop PUBMED_PREFIXES pubmed with
    | some t => .ok (some t)
    | none =>
      if "E7".data.isSuffixOf pubmed then
        match parseDecE7 (pubmed.take (pubmed.length - 2)) with
        | some n => .ok (some (natToStr n))
        | none => .error ()
      else .ok none

/-- The per-value acceptance test of `api._get_works`: empty values are
skipped, the standardized value must be truthy and numeric to be kept;
`Except.ok (some s)` means `s` enters the record's works. -/
def works_pubmed_accept (value : Str) : Except Unit (Option Str) :=
  if value = [] then .ok none
  else
    match _standardize_pubmed value with
    | .error e => .error e
    | .ok none => .ok none
    | .ok (some std) =>
      if std = [] then .ok none
      else if isNumericStr std then .ok (some std)
      else .ok none

/-! ## String ordering and set helpers for `_process_file` -/

/-- Python's lexicographic `<` on strings (by code point). -/
def strLt : Str → Str → Bool
  | [], [] => false
  | [], _ :: _ => true
  | _ :: _, [] => false
  | a :: xs, b :: ys => if a < b then true else if b < a then false else strLt xs ys

/-- Insert into a sorted list (worker for `sortStrs`). -/
def insertSorted (x : Str) : List Str → List Str
  | [] => [x]
  | y :: ys => if strLt x y then x :: y :: ys else y :: insertSorted x ys

/-- Python `sorted` on a set of strings. -/
def sortStrs (l : List Str) : List Str := l.foldr insertSorted []

/-- Add one element to a set modelled as a duplicate-free list. -/
def setInsert (s : List Str) (x : Str) : List Str := if x ∈ s then s else s ++ [x]

/-- Python `set.update`. -/
def setUnion (s : List Str) (xs : List Str) : List Str := xs.foldl setInsert s

/-- Python truthiness of an optional string. -/
def truthy (o : Option Str) : Bool :=
  match o with
  | some s => !s.isEmpty
  | none => false

/-! ## `api._iter_other_names` and `api._process_file` -/

/-- `api._iter_other_names` on the stripped texts of the `other-name`
content elements: split each on `;`, keep candidates that contain a
space and are under 60 characters, and clean them. -/
def _iter_other_names (contents : List Str) : List Str :=
  (contents.map (fun part =>
    (((splitOnChar ';' (stripWs part)).map stripWs).filter
      (fun z => ' ' ∈ z ∧ z.length < 60)).map (fun z => clean_name (stripWs z)))).flatten

/-- The composed family+given label of `_process_file`: present only
when both personal-details fields are truthy. -/
def pfLabelName (family_name given_names : Option Str) : Option Str :=
  match family_name, given_names with
  | some f, some g =>
    if f ≠ [] ∧ g ≠ [] then some (stripWs g ++ ' ' :: stripWs f) else none
  | _, _ => none

/-- The credit-name conditioning of `_process_file`: a truthy credit
name is stripped, an empty one is kept as is. -/
def pfCreditName (credit_name : Option Str) : Option Str :=
  match credit_name with
  | some c => if c ≠ [] then some (stripWs c) else some c
  | none => none

/-- Python set removal of the name from the alias set (`if name in
aliases: aliases.remove(name)`). -/
def dedupAgainst (n : Str) (al : List Str) : List Str :=
  if n ∈ al then al.filter (fun a => a ≠ n) else al

/-- The raw name choice of `_process_file`: the credit name is preferred
over the composed label, the label becoming an alias. -/
def pfRawPair (credit_name label_name : Option Str) : Str × List Str :=
  if truthy credit_name then
    (credit_name.getD [],
     match label_name with
     | some l => [l]
     | none => [])
  else (label_name.getD [], [])

/-- The conditional cleaning `name = name and clean_name(name)`. -/
def pfCleanName (raw : Str) : Str := if raw = [] then raw else clean_name raw

/-- The name/alias state of `_process_file` just before reconciliation:
the cleaned chosen name, and the union of the label alias with the
other-name aliases, with the name removed from them. -/
def pfNameAliases (credit_name label_name : Option Str) (other_names : List Str) :
    Str × List Str :=
  (pfCleanName (pfRawPair credit_name label_name).1,
   dedupAgainst (pfCleanName (pfRawPair credit_name label_name).1)
     (setUnion (pfRawPair credit_name label_name).2 (_iter_other_names other_names)))

/-- The tail of `_process_file` once a usable label is known to exist:
reconcile the cleaned name with the aliases and assemble the record (the
alias set is emitted sorted). -/
def pfFinish (orcid : Str) (credit_name label_name : Option Str)
    (other_names : List Str) (xrefs : List (Str × Str)) (works : List Work)
    (employments educations memberships : List Affiliation) : Option Record :=
  match reconcile_aliases (some (pfNameAliases credit_name label_name other_names).1)
      (pfNameAliases credit_name label_name other_names).2 1 with
  | (none, _) => none
  | (some nm, aliasesF) =>
    some { orcid := orcid, name := nm, aliases := sortStrs aliasesF,
           xrefs := xrefs, works := works, employments := employments,
           educations := educations, memberships := memberships }

/-- `api._process_file`, parameterised by the fields the XML parse and
the external collaborators (ROR grounder, wikidata and commons maps)
supply: the ORCID path text, the personal-details name fields, the
other-name contents, and the already-extracted xrefs, works and
affiliations that the record carries through unchanged. -/
def _process_file (orcid family_name given_names credit_name : Option Str)
    (other_names : List Str) (xrefs : List (Str × Str)) (works : List Work)
    (employments educations memberships : List Affiliation) : Option Record :=
  match orcid with
  | none => none
  | some orcid =>
    if orcid = [] then none
    else if ¬ truthy (pfCreditName credit_name) ∧
        pfLabelName family_name given_names = none then none
    else
      pfFinish orcid (pfCreditName credit_name) (pfLabelName family_name given_names)
        other_names xrefs works employments educations memberships

/-- The `for g in tree.findall(...)` loop body of `api._get_works` over
the pmid-typed external-id values, in document order: accepted values are
collected as a set and the sorted set becomes the record's works. -/
def getWorksAux : List Str → List Str → Except Unit (List Str)
  | [], acc => .ok acc
  | v :: vs, acc =>
    match works_pubmed_accept v with
    | .error e => .error e
    | .ok none => getWorksAux vs acc
    | .ok (some s) => getWorksAux vs (setInsert acc s)

/-- `api._get_works` restricted to the pmid values of the document. -/
def _get_works (values : List Str) : Except Unit (List Work) :=
  (getWorksAux values []).map (fun pmids => (sortStrs pmids).map (fun p => ⟨p⟩))

/-- The high-quality predicate exactly as the claim words it: at least
one external reference, at least one employment, education or membership
affiliation carrying a resolved organization id, or at least one work. -/
def claimHighQuality (r : Record) : Bool :=
  !r.xrefs.isEmpty
    || ((r.employments ++ r.educations ++ r.memberships).any fun a => hasKey a.xrefs "ror".data)
    || !r.works.isEmpty

/-- A record whose only evidence is a membership with a resolved
organization. -/
def membershipOnlyRecord : Record :=
  { orcid := "0000-0001-2345-6789".data, name := "Jane Doe".data, aliases := [],
    xrefs := [], works := [], employments := [], educations := [],
    memberships := [{ name := "Example University".data,
                      xrefs := [("ror".data, "05gq02987".data)] }] }

/-- C5 counterexample: a record whose only evidence is a membership with
a resolved organization id satisfies the claim's predicate but is not
placed in the high-quality partition, because `is_high_quality` has the
membership check commented out. -/
theorem is_high_quality_membership_cex :
    membershipOnlyRecord.is_high_quality = false ∧
      claimHighQuality membershipOnlyRecord = true := by
  decide

/-- C5 (amended): a record is high quality iff its name is nonempty and
it has an employment or education affiliation with a ROR cross-reference,
a work, or an external reference; memberships do not count. -/
theorem is_high_quality_iff (r : Record) :
    r.is_high_quality = true ↔
      r.name ≠ [] ∧
        ((∃ a ∈ r.employments, ∃ kv ∈ a.xrefs, kv.1 = "ror".data) ∨
         (∃ a ∈ r.educations, ∃ kv ∈ a.xrefs, kv.1 = "ror".data) ∨
         r.works ≠ [] ∨ r.xrefs ≠ []) := by
  by_cases h : r.name = [] <;>
    simp [Record.is_high_quality, h, hasKey, List.any_eq_true,
      List.isEmpty_iff, Bool.or_eq_true, ne_eq, or_assoc]

/-- C3 (code bug): `clean_name` is not idempotent.  The honorific tests
read the `lower` string computed from the original input, so the stacked
prefix of `"Prof. Dr. Jane Doe"` is only stripped one layer per call. -/
theorem clean_name_not_idempotent :
    clean_name "Prof. Dr. Jane Doe".data = "Dr. Jane Doe".data ∧
    clean_name (clean_name "Prof. Dr. Jane Doe".data) = "Jane Doe".data ∧
    clean_name (clean_name "Prof. Dr. Jane Doe".data) ≠
      clean_name "Prof. Dr. Jane Doe".data := by
  refine ⟨by decide, by decide, by decide⟩

/-- C7: the ROR grounder returns the base result on a hit, and otherwise
retries exactly once on the name with one leading `"The "` and all
commas removed, returning whatever that second call gives. -/
theorem ror_ground_characterisation {μ : Type} (base : Str → List μ) (text : Str) :
    (base text ≠ [] → RORGrounder.ground base text = base text) ∧
    (base text = [] → RORGrounder.ground base text = base (rorFallbackName text)) := by
  constructor
  · intro h
    unfold RORGrounder.ground
    cases hb : base text with
    | nil => exact absurd hb h
    | cons m ms => rfl
  · intro h
    unfold RORGrounder.ground
    rw [h]

/-- A concrete external organization index for the C7 witness. -/
def rorExampleBase : Str → List Nat :=
  fun s => if s = "Example University".data then [7] else []

/-- C7 witness: the characterisation applied to a concrete base index
and the query `"The Example, University"`, whose raw lookup misses. -/
theorem ror_ground_characterisation_witness :
    RORGrounder.ground rorExampleBase "The Example, University".data =
      rorExampleBase (rorFallbackName "The Example, University".data) :=
  (ror_ground_characterisation rorExampleBase "The Example, University".data).2 (by decide)

/-- C10: on a query with no whitespace tokens whose index lookup returns
no hits, the synonym fallback fails (the starred unpacking in
`name_to_synonyms` raises `ValueError`), so `get_matches` does not
return a list at all. -/
theorem get_matches_tokenless_raises (lookup : Str → List Match) (q : Str)
    (hq : splitWs q = []) (hl : lookup q = []) :
    get_matches lookup q = none := by
  simp [get_matches, hl, name_to_synonyms, hq]

/-- C10 witness: the whitespace-only query `"   "` against an empty
index raises rather than returning an empty match list. -/
theorem get_matches_tokenless_raises_witness :
    get_matches (fun _ => []) "   ".data = none :=
  get_matches_tokenless_raises (fun _ => []) "   ".data (by decide) rfl

/-- C6 counterexample: the value `"2.51E7"` matches no known prefix and
its stripped remainder is not fully numeric, yet the scientific-notation
branch converts it and `"25100000"` is stored in the record's works. -/
theorem works_pubmed_e7_cex :
    works_pubmed_accept "2.51E7".data = .ok (some "25100000".data) ∧
    isNumericStr "2.51E7".data = false ∧
    (PUBMED_PREFIXES.all fun x => !x.isPrefixOf "2.51E7".data) = true ∧
    _get_works ["2.51E7".data] = .ok [⟨"25100000".data⟩] := by
  refine ⟨by decide, by decide, by decide, by decide⟩

/-- C6 (amended): every value stored into a record's works is fully
numeric; `"PMID: 36151740"` normalizes to `"36151740"` and is stored,
while `"some free text"` is rejected and nothing is stored.  Besides
prefix stripping, values ending in `"E7"` are first converted from
scientific notation. -/
theorem works_pubmed_accept_only_numeric :
    (∀ v s, works_pubmed_accept v = .ok (some s) → isNumericStr s = true) ∧
    works_pubmed_accept "PMID: 36151740".data = .ok (some "36151740".data) ∧
    works_pubmed_accept "some free text".data = .ok none ∧
    _get_works ["PMID: 36151740".data, "some free text".data] =
      .ok [⟨"36151740".data⟩] := by
  refine ⟨?_, by decide, by decide, by decide⟩
  intro v s h
  unfold works_pubmed_accept at h
  split at h
  · exact absurd h (by simp)
  · split at h
    · exact absurd h (by simp)
    · exact absurd h (by simp)
    · split at h
      · exact absurd h (by simp)
      · split at h
        · simp only [Except.ok.injEq, Option.some.injEq] at h
          subst h
          assumption
        · exact absurd h (by simp)

/-! ## The grounding fallback (C4) and the ambiguity policy (C1) -/

/-- The fallback result exactly as the claim words it: the hits of the
first generated variant producing at least one hit; the empty list once
every variant is exhausted. -/
def firstHitSpec (lookup : Str → List Match) (syns : List Str) : List Match :=
  match syns.find? (fun s => !(lookup s).isEmpty) with
  | some s => lookup s
  | none => []

/-- The matcher's fallback loop computes exactly the claim's first-hit
semantics. -/
theorem firstHit_eq_spec (lookup : Str → List Match) (syns : List Str) :
    firstHit lookup syns = firstHitSpec lookup syns := by
  induction syns with
  | nil => rfl
  | cons s ss ih =>
    unfold firstHit firstHitSpec
    cases hl : lookup s with
    | nil =>
      rw [List.find?_cons_of_neg _ (by simp [hl])]
      exact ih
    | cons m ms =>
      rw [List.find?_cons_of_pos _ (by simp [hl])]
      exact hl.symm

/-- C4 counterexample: on the empty query with an empty index the
fallback raises (models the `ValueError` from `name_to_synonyms`), so
`get_matches` does not return the empty list the claim promises. -/
theorem get_matches_empty_query_cex :
    get_matches (fun _ => []) "".data = none ∧
    get_matches (fun _ => []) "".data ≠ some [] := by
  refine ⟨rfl, by decide⟩

/-- C4 (amended): for every query with at least one whitespace token,
`get_matches` returns the exact-lookup hits unchanged when there is at
least one, and on zero hits returns the hits of the first synonym
variant producing any, in generator order, the empty list if all are
exhausted. -/
theorem get_matches_characterisation (lookup : Str → List Match) (q : Str)
    (hq : splitWs q ≠ []) :
    (lookup q ≠ [] → get_matches lookup q = some (lookup q)) ∧
    (lookup q = [] →
      get_matches lookup q =
        some (firstHitSpec lookup ((name_to_synonyms q).getD []))) := by
  constructor
  · intro h
    unfold get_matches
    cases hl : lookup q with
    | nil => exact absurd hl h
    | cons m ms => rfl
  · intro h
    unfold get_matches
    rw [h]
    cases hn : name_to_synonyms q with
    | none =>
      unfold name_to_synonyms at hn
      cases hsp : splitWs q with
      | nil => exact absurd hsp hq
      | cons t ts =>
        rw [hsp] at hn
        simp only at hn
        split at hn <;> simp at hn
    | some syns => simp [firstHit_eq_spec]

/-- C4 witness: the characterisation applied to the query
`"Jane Doe"` against an empty index. -/
theorem get_matches_characterisation_witness :
    get_matches (fun _ => []) "Jane Doe".data =
      some (firstHitSpec (fun _ => []) ((name_to_synonyms "Jane Doe".data).getD [])) :=
  (get_matches_characterisation (fun _ => []) "Jane Doe".data (by decide)).2 rfl

/-- A lookup returning two hit terms that belong to one identity. -/
def dupIdLookup : Str → List Match :=
  fun _ => [⟨"0000-0001-0000-0001".data⟩, ⟨"0000-0001-0000-0001".data⟩]

/-- C1 counterexample: both hits resolve to one single distinct
identity, yet `ground_researcher_unambiguous` returns none because it
tests the number of hits, not the number of distinct identities. -/
theorem unambiguous_same_identity_cex :
    ground_researcher dupIdLookup "John Smith".data =
      some [⟨"0000-0001-0000-0001".data⟩, ⟨"0000-0001-0000-0001".data⟩] ∧
    (((ground_researcher dupIdLookup "John Smith".data).getD []).map Match.id).dedup =
      ["0000-0001-0000-0001".data] ∧
    ground_researcher_unambiguous dupIdLookup "John Smith".data = some none := by
  refine ⟨rfl, by decide, rfl⟩

/-- C1 (amended): `ground_researcher_unambiguous` returns an id exactly
when `ground_researcher` returns exactly one hit (several hits that all
share one identity still give none), and whenever it returns an id, all
hits resolve to that one distinct identity. -/
theorem unambiguous_characterisation (lookup : Str → List Match) (q : Str)
    (ms : List Match) (h : ground_researcher lookup q = some ms) :
    (∀ m, ms = [m] →
      ground_researcher_unambiguous lookup q = some (some m.id)) ∧
    (ms.length ≠ 1 → ground_researcher_unambiguous lookup q = some none) ∧
    (∀ i, ground_researcher_unambiguous lookup q = some (some i) →
      (ms.map Match.id).dedup = [i]) := by
  refine ⟨?_, ?_, ?_⟩
  · intro m hm
    unfold ground_researcher_unambiguous
    rw [h, hm]
  · intro hlen
    unfold ground_researcher_unambiguous
    rw [h]
    cases ms with
    | nil => rfl
    | cons a t =>
      cases t with
      | nil => simp at hlen
      | cons b u => rfl
  · intro i hi
    unfold ground_researcher_unambiguous at hi
    rw [h] at hi
    cases ms with
    | nil => simp at hi
    | cons a t =>
      cases t with
      | nil =>
        simp only [Option.some.injEq] at hi
        simp [List.dedup_cons_of_not_mem, ← hi]
      | cons b u => simp at hi

/-- C1 witness: a single-hit lookup grounds unambiguously to that hit's
identity. -/
theorem unambiguous_characterisation_witness :
    ground_researcher_unambiguous (fun _ => [⟨"0000-0003-4423-4370".data⟩])
      "Charles Tapley Hoyt".data = some (some "0000-0003-4423-4370".data) :=
  (unambiguous_characterisation (fun _ => [⟨"0000-0003-4423-4370".data⟩])
    "Charles Tapley Hoyt".data _ rfl).1 _ rfl

/-! ## Extraction without labels (C8) and record invariants (C9) -/

/-- C8: a document lacking a usable display name (credit name absent or
blank) and a composed family+given name yields no record — and, other
names notwithstanding, the path is a total function returning none, not
an exception. -/
theorem process_file_no_labels (orcid family_name given_names credit_name : Option Str)
    (other_names : List Str) (xrefs : List (Str × Str)) (works : List Work)
    (employments educations memberships : List Affiliation)
    (hcredit : ∀ c, credit_name = some c → stripWs c = [])
    (hlabel : truthy family_name = false ∨ truthy given_names = false)
    (halias : _iter_other_names other_names = []) :
    _process_file orcid family_name given_names credit_name other_names
      xrefs works employments educations memberships = none := by
  have hl : pfLabelName family_name given_names = none := by
    unfold pfLabelName
    cases family_name with
    | none => rfl
    | some f =>
      cases given_names with
      | none => rfl
      | some g =>
        rcases hlabel with h | h
        · have hf : f = [] := by simpa [truthy] using h
          simp [hf]
        · have hg : g = [] := by simpa [truthy] using h
          simp [hg]
  have hc : truthy (pfCreditName credit_name) = false := by
    unfold pfCreditName
    cases credit_name with
    | none => rfl
    | some c =>
      have hcs := hcredit c rfl
      by_cases hce : c = []
      · simp [truthy, hce]
      · simp [truthy, hce, hcs]
  unfold _process_file
  cases orcid with
  | none => rfl
  | some o => simp [hl, hc]

/-- C8 witness: a document with a blank credit name, no family name and
an other-name field that yields no usable alias produces no record. -/
theorem process_file_no_labels_witness :
    _process_file (some "0001".data) none (some "Jane".data) (some "  ".data)
      ["nospacealias".data] [] [] [] [] [] = none :=
  process_file_no_labels (some "0001".data) none (some "Jane".data) (some "  ".data)
    ["nospacealias".data] [] [] [] [] []
    (fun c hc => by cases hc; decide) (Or.inl rfl) (by decide)

/-- The promoted alias is an element of the candidate list. -/
theorem maxByLen_mem (a : Str) (rest : List Str) : maxByLen a rest ∈ a :: rest := by
  induction rest generalizing a with
  | nil => simp [maxByLen]
  | cons x t ih =>
    have hstep : maxByLen a (x :: t) = maxByLen (if a.length < x.length then x else a) t := rfl
    rw [hstep]
    rcases List.mem_cons.mp (ih (if a.length < x.length then x else a)) with h | h
    · rw [h]
      split <;> simp
    · exact List.mem_cons_of_mem _ (List.mem_cons_of_mem _ h)

/-- No candidate is longer than the promoted alias. -/
theorem maxByLen_le (a : Str) (rest : List Str) :
    ∀ x ∈ a :: rest, x.length ≤ (maxByLen a rest).length := by
  induction rest generalizing a with
  | nil =>
    intro x hx
    rcases List.mem_cons.mp hx with rfl | hx
    · simp [maxByLen]
    · simp at hx
  | cons y t ih =>
    intro x hx
    have hstep : maxByLen a (y :: t) = maxByLen (if a.length < y.length then y else a) t := rfl
    rw [hstep]
    have hseed : a.length ≤ (if a.length < y.length then y else a).length ∧
        y.length ≤ (if a.length < y.length then y else a).length := by
      split <;> omega
    rcases List.mem_cons.mp hx with rfl | hx1
    · exact le_trans hseed.1 (ih _ _ (List.mem_cons_self _ _))
    · rcases List.mem_cons.mp hx1 with rfl | hx2
      · exact le_trans hseed.2 (ih _ _ (List.mem_cons_self _ _))
      · exact ih _ x (List.mem_cons_of_mem _ hx2)

/-- Membership through sorted insertion. -/
theorem mem_insertSorted (x y : Str) (l : List Str) :
    y ∈ insertSorted x l ↔ y = x ∨ y ∈ l := by
  induction l with
  | nil => simp [insertSorted]
  | cons a t ih =>
    unfold insertSorted
    split
    · simp [List.mem_cons]
    · simp only [List.mem_cons, ih]
      tauto

/-- Sorting the alias set neither adds nor removes labels. -/
theorem mem_sortStrs (y : Str) (l : List Str) : y ∈ sortStrs l ↔ y ∈ l := by
  induction l with
  | nil => simp [sortStrs]
  | cons a t ih =>
    show y ∈ insertSorted a (sortStrs t) ↔ _
    rw [mem_insertSorted]
    simp [ih]

/-- What `reconcile_aliases` guarantees about a produced name: it is
longer than the minimum, and (when the incoming name does not occur
among the aliases) it does not occur in the returned alias set. -/
theorem reconcile_result (nm : Option Str) (al : List Str) (mnl : Nat) (s : Str)
    (as2 : List Str) (hpre : ∀ t, nm = some t → t ∉ al)
    (h : reconcile_aliases nm al mnl = (some s, as2)) :
    mnl < s.length ∧ s ∉ as2 := by
  unfold reconcile_aliases at h
  split at h
  · -- the incoming name survives the length test
    rename_i n heq
    simp only [Prod.mk.injEq, Option.some.injEq] at h
    obtain ⟨rfl, rfl⟩ := h
    cases nm with
    | none => simp at heq
    | some t =>
      have heq2 : (if t.length ≤ mnl then (none : Option Str) else some t) = some n := heq
      by_cases hlen : t.length ≤ mnl
      · rw [if_pos hlen] at heq2
        simp at heq2
      · rw [if_neg hlen] at heq2
        injection heq2 with ht
        subst ht
        refine ⟨by omega, fun hmem => ?_⟩
        exact hpre _ rfl (List.mem_of_mem_filter hmem)
  · -- promotion of the longest remaining alias
    split at h
    · simp at h
    · rename_i a rest haf
      simp only [Prod.mk.injEq, Option.some.injEq] at h
      obtain ⟨rfl, rfl⟩ := h
      constructor
      · have hmem : maxByLen a rest ∈ al.filter (fun a => mnl < a.length) := by
          rw [haf]
          exact maxByLen_mem a rest
        simpa using List.of_mem_filter hmem
      · intro hmem
        rw [List.mem_filter] at hmem
        simp at hmem

/-- The cleaned name never survives into the deduplicated alias set. -/
theorem name_not_mem_dedup (n : Str) (al : List Str) : n ∉ dedupAgainst n al := by
  unfold dedupAgainst
  split
  · intro hmem
    rw [List.mem_filter] at hmem
    simp at hmem
  · assumption

/-- The name chosen by `_process_file` is already absent from the alias
set handed to reconciliation. -/
theorem pfNameAliases_not_mem (credit_name label_name : Option Str)
    (other_names : List Str) :
    (pfNameAliases credit_name label_name other_names).1 ∉
      (pfNameAliases credit_name label_name other_names).2 :=
  name_not_mem_dedup _ _

/-- C9: every record produced by extraction has a nonempty canonical
name that does not occur among its aliases; when the incoming name is
missing or too short, the first longest usable alias is promoted to
canonical and removed from the alias set; and a name is produced
whenever the incoming name or any alias is a usable label. -/
theorem extraction_invariants :
    (∀ orcid family_name given_names credit_name other_names xrefs works
        employments educations memberships r,
      _process_file orcid family_name given_names credit_name other_names
          xrefs works employments educations memberships = some r →
        r.name ≠ [] ∧ r.name ∉ r.aliases) ∧
    (∀ nm al a rest, (nm = none ∨ ∃ s, nm = some s ∧ s.length ≤ 1) →
      al.filter (fun x => 1 < x.length) = a :: rest →
      reconcile_aliases nm al 1 =
        (some (maxByLen a rest), (a :: rest).filter (fun x => x ≠ maxByLen a rest)) ∧
      maxByLen a rest ∈ a :: rest ∧
      ∀ x ∈ a :: rest, x.length ≤ (maxByLen a rest).length) ∧
    (∀ nm al, ((∃ s, nm = some s ∧ 1 < s.length) ∨ ∃ x ∈ al, 1 < x.length) →
      (reconcile_aliases nm al 1).1 ≠ none) := by
  refine ⟨?_, ?_, ?_⟩
  · intro orcid family_name given_names credit_name other_names xrefs works
      employments educations memberships r hpf
    unfold _process_file at hpf
    split at hpf
    · exact absurd hpf (by simp)
    · split at hpf
      · exact absurd hpf (by simp)
      · split at hpf
        · exact absurd hpf (by simp)
        · unfold pfFinish at hpf
          split at hpf
          · exact absurd hpf (by simp)
          · rename_i nm aliasesF heq
            simp only [Option.some.injEq] at hpf
            subst hpf
            have hres := reconcile_result _ _ _ _ _
              (fun t ht => by
                injection ht with ht1
                rw [← ht1]
                exact pfNameAliases_not_mem _ _ _) heq
            refine ⟨fun he => ?_, ?_⟩
            · have he1 : nm = [] := by simpa using he
              rw [he1] at hres
              simp at hres
            · show nm ∉ sortStrs aliasesF
              rw [mem_sortStrs]
              exact hres.2
  · intro nm al a rest hshort haf
    refine ⟨?_, maxByLen_mem a rest, maxByLen_le a rest⟩
    have hname : (match nm with
        | some n => if n.length ≤ 1 then none else some n
        | none => (none : Option Str)) = none := by
      rcases hshort with h | ⟨s, h, hs⟩
      · rw [h]
      · rw [h]
        simp only
        rw [if_pos hs]
    unfold reconcile_aliases
    simp only [hname, haf]
  · intro nm al husable
    unfold reconcile_aliases
    rcases husable with ⟨s, hnm, hs⟩ | ⟨x, hx, hxl⟩
    · subst hnm
      simp only
      rw [if_neg (by omega)]
      simp
    · have hmem : x ∈ al.filter (fun a => 1 < a.length) :=
        List.mem_filter.mpr ⟨hx, by simpa using hxl⟩
      cases hname : (match nm with
          | some n => if n.length ≤ 1 then none else some n
          | none => (none : Option Str)) with
      | some n => simp [hname]
      | none =>
        cases haf : al.filter (fun a => 1 < a.length) with
        | nil =>
          rw [haf] at hmem
          simp at hmem
        | cons a rest => simp [hname, haf]

/-- C9 witness: the invariants applied to a concrete document whose
credit name `"Dr. Jane Doe"` cleans to `"Jane Doe"` and whose composed
label duplicates it. -/
theorem extraction_invariants_witness :
    (Record.mk "0001".data "Jane Doe".data [] [] [] [] [] []).name ≠ [] ∧
    (Record.mk "0001".data "Jane Doe".data [] [] [] [] [] []).name ∉
      (Record.mk "0001".data "Jane Doe".data [] [] [] [] [] []).aliases :=
  extraction_invariants.1 (some "0001".data) (some "Doe".data) (some "Jane".data)
    (some "Dr. Jane Doe".data) [] [] [] [] [] []
    (Record.mk "0001".data "Jane Doe".data [] [] [] [] [] []) (by decide)

/-! ## Tokenisation theory for the synonym generator (C2) -/

/-- A token as produced by `splitWs`: nonempty and whitespace-free. -/
def Tok (t : Str) : Prop := t ≠ [] ∧ ∀ c ∈ t, isWs c = false

/-- Unfolding rule: a whitespace character closes the current token. -/
theorem splitWsAux_cons_ws (c : Char) (cs acc : Str) (h : isWs c = true) :
    splitWsAux (c :: cs) acc =
      if acc = [] then splitWsAux cs [] else acc.reverse :: splitWsAux cs [] := by
  simp [splitWsAux, h]

/-- Unfolding rule: a non-whitespace character extends the current token. -/
theorem splitWsAux_cons_nws (c : Char) (cs acc : Str) (h : isWs c = false) :
    splitWsAux (c :: cs) acc = splitWsAux cs (c :: acc) := by
  simp [splitWsAux, h]

/-- Every string `splitWs` returns is a token. -/
theorem splitWsAux_tok (s : Str) : ∀ acc, (∀ c ∈ acc, isWs c = false) →
    ∀ t ∈ splitWsAux s acc, Tok t := by
  induction s with
  | nil =>
    intro acc hacc t ht
    unfold splitWsAux at ht
    split at ht
    · simp at ht
    · rename_i hne
      simp only [List.mem_singleton] at ht
      subst ht
      exact ⟨by simp [hne], fun c hc => hacc c (by simpa using hc)⟩
  | cons c cs ih =>
    intro acc hacc t ht
    by_cases hws : isWs c = true
    · rw [splitWsAux_cons_ws c cs acc hws] at ht
      split at ht
      · exact ih [] (by simp) t ht
      · rename_i hne
        rcases List.mem_cons.mp ht with rfl | ht2
        · exact ⟨by simp [hne], fun d hd => hacc d (by simpa using hd)⟩
        · exact ih [] (by simp) t ht2
    · rw [splitWsAux_cons_nws c cs acc (by simpa using hws)] at ht
      refine ih (c :: acc) ?_ t ht
      intro d hd
      rcases List.mem_cons.mp hd with rfl | hd2
      · simpa using hws
      · exact hacc d hd2

/-- Every string `splitWs` returns is a token. -/
theorem splitWs_tok (s : Str) : ∀ t ∈ splitWs s, Tok t :=
  splitWsAux_tok s [] (by simp)

/-- Splitting a token followed by a space peels the token off. -/
theorem splitWsAux_token_append : ∀ (t : Str), (∀ c ∈ t, isWs c = false) → t ≠ [] →
    ∀ (rest acc : Str),
      splitWsAux (t ++ ' ' :: rest) acc = (acc.reverse ++ t) :: splitWsAux rest [] := by
  intro t
  induction t with
  | nil => intro _ hne; exact absurd rfl hne
  | cons c cs ih =>
    intro hw _ rest acc
    have hc : isWs c = false := hw c (List.mem_cons_self c cs)
    rw [List.cons_append, splitWsAux_cons_nws c _ _ hc]
    cases cs with
    | nil =>
      simp only [List.nil_append]
      rw [splitWsAux_cons_ws ' ' rest (c :: acc) (by decide)]
      rw [if_neg (by simp)]
      simp
    | cons d ds =>
      rw [ih (fun x hx => hw x (List.mem_cons_of_mem c hx)) (by simp) rest (c :: acc)]
      simp

/-- Splitting a final token yields exactly that token. -/
theorem splitWsAux_token_final : ∀ (t : Str), (∀ c ∈ t, isWs c = false) →
    ∀ (acc : Str), (acc ≠ [] ∨ t ≠ []) → splitWsAux t acc = [acc.reverse ++ t] := by
  intro t
  induction t with
  | nil =>
    intro _ acc hne
    unfold splitWsAux
    rw [if_neg (by rcases hne with h | h; exacts [h, absurd rfl h])]
    simp
  | cons c cs ih =>
    intro hw acc _
    have hc : isWs c = false := hw c (List.mem_cons_self c cs)
    rw [splitWsAux_cons_nws c _ _ hc]
    rw [ih (fun x hx => hw x (List.mem_cons_of_mem c hx)) (c :: acc) (Or.inl (by simp))]
    simp

/-- Splitting a space-join of tokens recovers exactly the tokens. -/
theorem splitWs_joinSp : ∀ (ts : List Str), ts ≠ [] → (∀ t ∈ ts, Tok t) →
    splitWs (joinSp ts) = ts := by
  intro ts
  induction ts with
  | nil => intro h; exact absurd rfl h
  | cons t us ih =>
    intro _ htok
    obtain ⟨htne, htw⟩ := htok t (List.mem_cons_self t us)
    cases us with
    | nil =>
      show splitWsAux t [] = [t]
      rw [splitWsAux_token_final t htw [] (Or.inr htne)]
      simp
    | cons u vs =>
      show splitWsAux (t ++ ' ' :: joinSp (u :: vs)) [] = t :: u :: vs
      rw [splitWsAux_token_append t htw htne (joinSp (u :: vs)) []]
      simp only [List.reverse_nil, List.nil_append]
      congr 1
      exact ih (by simp) (fun x hx => htok x (List.mem_cons_of_mem t hx))

/-- Space-joining onto a nonempty list of tokens. -/
theorem joinSp_cons (a : Str) (ts : List Str) (h : ts ≠ []) :
    joinSp (a :: ts) = a ++ ' ' :: joinSp ts := by
  cases ts with
  | nil => exact absurd rfl h
  | cons u vs => rfl

/-- Space-joining with a final token appended. -/
theorem joinSp_append_single (ts : List Str) (h : ts ≠ []) (y : Str) :
    joinSp (ts ++ [y]) = joinSp ts ++ ' ' :: y := by
  induction ts with
  | nil => exact absurd rfl h
  | cons t us ih =>
    cases us with
    | nil => rfl
    | cons u vs =>
      show t ++ ' ' :: joinSp ((u :: vs) ++ [y]) = (t ++ ' ' :: joinSp (u :: vs)) ++ ' ' :: y
      rw [ih (by simp)]
      simp

/-- Appending the comma of a `"family, given"` variant keeps a token. -/
theorem tok_append_comma {fam : Str} (hf : Tok fam) : Tok (fam ++ [',']) := by
  refine ⟨by simp, ?_⟩
  intro c hc
  rcases List.mem_append.mp hc with h | h
  · exact hf.2 c h
  · simp only [List.mem_singleton] at h
    subst h
    decide

/-- An initial of a token is a token. -/
theorem tok_head1 {g : Str} (hg : Tok g) : Tok (head1 g) := by
  cases g with
  | nil => exact absurd rfl hg.1
  | cons c t =>
    refine ⟨by simp [head1], ?_⟩
    intro d hd
    simp only [head1, List.mem_singleton] at hd
    subst hd
    exact hg.2 _ (List.mem_cons_self _ _)

/-- A dotted initial of a token is a token. -/
theorem tok_dotInit {g : Str} (hg : Tok g) : Tok (dotInit g) := by
  refine ⟨by simp [dotInit], ?_⟩
  intro d hd
  rcases List.mem_append.mp hd with h | h
  · exact (tok_head1 hg).2 d h
  · simp only [List.mem_singleton] at h
    subst h
    decide

/-- All initials of tokens are tokens. -/
theorem tok_map_head1 {gs : List Str} (h : ∀ g ∈ gs, Tok g) :
    ∀ x ∈ gs.map head1, Tok x := by
  intro x hx
  rw [List.mem_map] at hx
  obtain ⟨g, hg, rfl⟩ := hx
  exact tok_head1 (h g hg)

/-- All dotted initials of tokens are tokens. -/
theorem tok_map_dotInit {gs : List Str} (h : ∀ g ∈ gs, Tok g) :
    ∀ x ∈ gs.map dotInit, Tok x := by
  intro x hx
  rw [List.mem_map] at hx
  obtain ⟨g, hg, rfl⟩ := hx
  exact tok_dotInit (h g hg)

/-- Concatenating a nonempty list of tokens yields a token. -/
theorem tok_flatten {ls : List Str} (hne : ls ≠ []) (hall : ∀ l ∈ ls, Tok l) :
    Tok ls.flatten := by
  refine ⟨?_, ?_⟩
  · cases ls with
    | nil => exact absurd rfl hne
    | cons a t =>
      have ha := hall a (by simp)
      intro hfl
      rw [List.flatten_cons, List.append_eq_nil] at hfl
      exact ha.1 hfl.1
  · intro c hc
    rw [List.mem_flatten] at hc
    obtain ⟨l, hl, hcl⟩ := hc
    exact (hall l hl).2 c hcl

/-- The per-token hypothesis of the amended C2: a given-name token of at
least two characters that is not a dotted bare initial and contains no
comma. -/
def GoodTok (g : Str) : Prop :=
  2 ≤ g.length ∧ ¬(g.length = 2 ∧ g.getLastD ' ' = '.') ∧ ',' ∉ g

instance decGoodTok (g : Str) : Decidable (GoodTok g) := by
  unfold GoodTok
  infer_instance

/-- An initial has at most one character. -/
theorem head1_length (g : Str) : (head1 g).length ≤ 1 := by
  cases g <;> simp [head1]

/-- A good token is never a bare initial. -/
theorem goodTok_ne_head1 {g x : Str} (hg : GoodTok g) (h : g = head1 x) : False := by
  have h1 := congrArg List.length h
  have h2 := head1_length x
  obtain ⟨h3, -, -⟩ := hg
  omega

/-- A good token is never a dotted initial. -/
theorem goodTok_ne_dotInit {g x : Str} (hg : GoodTok g) (h : g = dotInit x) : False := by
  obtain ⟨h2, hnd, -⟩ := hg
  subst h
  cases x with
  | nil => simp [dotInit, head1] at h2
  | cons c t =>
    exact hnd ⟨by simp [dotInit, head1], by simp [dotInit, head1, List.getLastD]⟩

/-- A list followed by one token is never a singleton unless the list is
empty. -/
theorem append_single_eq_single {gs : List Str} {fam y : Str}
    (h : gs ++ [fam] = [y]) : gs = [] ∧ fam = y := by
  cases gs with
  | nil => simpa using h
  | cons a t =>
    exfalso
    have := congrArg List.length h
    simp at this

/-- A list followed by one token equal to a pair determines both. -/
theorem append_single_eq_pair {gs : List Str} {fam x y : Str}
    (h : gs ++ [fam] = [x, y]) : gs = [x] ∧ fam = y := by
  cases gs with
  | nil =>
    exfalso
    have := congrArg List.length h
    simp at this
  | cons a t =>
    rw [List.cons_append] at h
    injection h with h1 h2
    obtain ⟨rfl, rfl⟩ := append_single_eq_single h2
    exact ⟨by rw [h1], rfl⟩

/-- No comma-free first given token matches a `"family,"` head token. -/
theorem shape_comma {g0 fam : Str} {gs ds : List Str}
    (hE : (g0 :: gs) ++ [fam] = (fam ++ [',']) :: ds) (hg : GoodTok g0) : False := by
  rw [List.cons_append] at hE
  injection hE with h1 _
  exact hg.2.2 (h1 ▸ List.mem_append_right fam (by simp))

/-- Token equation for the two-token variants `"X family"`. -/
theorem shape_two {g0 fam X : Str} {gs : List Str}
    (hE : (g0 :: gs) ++ [fam] = [X, fam]) : g0 = X ∧ gs = [] := by
  rw [List.cons_append] at hE
  injection hE with h1 h2
  exact ⟨h1, (append_single_eq_single h2).1⟩

/-- Token equation for the two-token variants `"family Y"`. -/
theorem shape_fam_two {g0 fam Y : Str} {gs : List Str}
    (hE : (g0 :: gs) ++ [fam] = [fam, Y]) : g0 = fam ∧ gs = [] ∧ fam = Y := by
  rw [List.cons_append] at hE
  injection hE with h1 h2
  obtain ⟨h3, h4⟩ := append_single_eq_single h2
  exact ⟨h1, h3, h4⟩

/-- Token equation for the spaced-initials variants `"i1 .. ik family"`. -/
theorem shape_map {g0 fam : Str} {gs : List Str} (f : Str → Str)
    (hE : (g0 :: gs) ++ [fam] = (g0 :: gs).map f ++ [fam]) : g0 = f g0 := by
  have h1 := (List.append_inj hE (by simp)).1
  rw [List.map_cons] at h1
  injection h1 with h2 h3

/-- Token equation for the variants `"family i1 .. ik"`. -/
theorem shape_fam_map {g0 fam : Str} {gs : List Str} (f : Str → Str)
    (hE : (g0 :: gs) ++ [fam] = fam :: (g0 :: gs).map f) :
    g0 = fam ∧ gs ++ [fam] = f g0 :: gs.map f := by
  rw [List.cons_append, List.map_cons] at hE
  injection hE with h1 h2
  exact ⟨h1, h2⟩

/-- Token equation for the middle-initial variants
`"first i1 .. ik family"`. -/
theorem shape_tailmap {g0 fam : Str} {gs : List Str} (f : Str → Str)
    (hE : (g0 :: gs) ++ [fam] = g0 :: (gs.map f ++ [fam])) : gs = gs.map f := by
  rw [List.cons_append] at hE
  injection hE with _ h2
  exact (List.append_inj h2 (by simp)).1

/-- Token equation for the three-token variants
`"first i1.…ik. family"`. -/
theorem shape_three {g0 fam X : Str} {gs : List Str}
    (hE : (g0 :: gs) ++ [fam] = [g0, X, fam]) : gs = [X] := by
  rw [List.cons_append] at hE
  injection hE with _ h2
  exact (append_single_eq_pair h2).1

/-- A self-describing list of initials contradicts good tokens. -/
theorem map_self_head_absurd {gs : List Str} (f : Str → Str) (hne : gs ≠ [])
    (hgood : ∀ g ∈ gs, GoodTok g) (h : gs = gs.map f)
    (hbad : ∀ g x : Str, GoodTok g → g = f x → False) : False := by
  cases gs with
  | nil => exact hne rfl
  | cons a t =>
    rw [List.map_cons] at h
    injection h with h1 _
    exact hbad a a (hgood a (by simp)) h1

/-- No variant generated from `givens ++ [family]` tokenises back to
the full token list when every given token is good. -/
theorem synList_not_self (g0 : Str) (gs : List Str) (family : Str)
    (hgt : ∀ g ∈ g0 :: gs, Tok g) (hft : Tok family)
    (hgood : ∀ g ∈ g0 :: gs, GoodTok g)
    (n : Str) (hsplitn : splitWs n = (g0 :: gs) ++ [family]) :
    n ∉ synList (g0 :: gs) family := by
  intro hmem
  have key : ∀ D : List Str, n = joinSp D → D ≠ [] → (∀ x ∈ D, Tok x) →
      (g0 :: gs) ++ [family] = D := by
    intro D hn hD htokD
    rw [← hsplitn, hn]
    exact splitWs_joinSp D hD htokD
  have hg0T : Tok g0 := hgt g0 (by simp)
  have hg0G : GoodTok g0 := hgood g0 (by simp)
  have hgsT : ∀ g ∈ gs, Tok g := fun g hg => hgt g (by simp [hg])
  have hgsG : ∀ g ∈ gs, GoodTok g := fun g hg => hgood g (by simp [hg])
  simp only [synList, List.headD_cons, List.tail_cons, List.mem_append, List.mem_cons,
    List.mem_ite_nil_right, List.not_mem_nil, or_false, false_or] at hmem
  rcases hmem with ((h | h) | ⟨hlen, (h | h | h | h | h | h)⟩) |
    h | h | h | h | h | h | h | h | h | h | h | h | h | h | h | h | h | h
  -- y1 : family ++ ", " ++ g0
  · have hD := key [family ++ [','], g0] (by rw [h]; simp [joinSp])
      (by simp)
      (by intro x hx
          simp only [List.mem_cons, List.not_mem_nil, or_false] at hx
          rcases hx with rfl | rfl
          exacts [tok_append_comma hft, hg0T])
    exact shape_comma hD hg0G
  -- y2 : family ++ ", " ++ " ".join(givens)
  · have hD := key ((family ++ [',']) :: g0 :: gs) (by rw [h]; simp [joinSp])
      (by simp)
      (by intro x hx
          simp only [List.mem_cons] at hx
          rcases hx with rfl | rfl | hx
          exacts [tok_append_comma hft, hg0T, hgsT x hx])
    exact shape_comma hD hg0G
  -- y3 : family ++ ", " ++ first ++ " " ++ spaced middle initials
  · have hgs : gs ≠ [] := by intro hc; subst hc; simp at hlen
    have hD := key ((family ++ [',']) :: g0 :: gs.map head1)
      (by rw [h, joinSp_cons (family ++ [',']) (g0 :: gs.map head1) (by simp),
            joinSp_cons g0 (gs.map head1) (by simp [hgs])]
          simp)
      (by simp)
      (by intro x hx
          simp only [List.mem_cons] at hx
          rcases hx with rfl | rfl | hx
          exacts [tok_append_comma hft, hg0T, tok_map_head1 hgsT x hx])
    exact shape_comma hD hg0G
  -- y4 : family ++ ", " ++ first ++ " " ++ joined dotted middle initials
  · have hgs : gs ≠ [] := by intro hc; subst hc; simp at hlen
    have hD := key [family ++ [','], g0, (gs.map dotInit).flatten]
      (by rw [h]; simp [joinSp])
      (by simp)
      (by intro x hx
          simp only [List.mem_cons, List.not_mem_nil, or_false] at hx
          rcases hx with rfl | rfl | rfl
          exacts [tok_append_comma hft, hg0T,
            tok_flatten (by simp [hgs]) (tok_map_dotInit hgsT)])
    exact shape_comma hD hg0G
  -- y5 : family ++ ", " ++ first ++ " " ++ spaced dotted middle initials
  · have hgs : gs ≠ [] := by intro hc; subst hc; simp at hlen
    have hD := key ((family ++ [',']) :: g0 :: gs.map dotInit)
      (by rw [h, joinSp_cons (family ++ [',']) (g0 :: gs.map dotInit) (by simp),
            joinSp_cons g0 (gs.map dotInit) (by simp [hgs])]
          simp)
      (by simp)
      (by intro x hx
          simp only [List.mem_cons] at hx
          rcases hx with rfl | rfl | hx
          exacts [tok_append_comma hft, hg0T, tok_map_dotInit hgsT x hx])
    exact shape_comma hD hg0G
  -- y6 : first ++ " " ++ spaced middle initials ++ " " ++ family
  · have hgs : gs ≠ [] := by intro hc; subst hc; simp at hlen
    have hD := key (g0 :: (gs.map head1 ++ [family]))
      (by rw [h, joinSp_cons g0 (gs.map head1 ++ [family]) (by simp),
            joinSp_append_single (gs.map head1) (by simp [hgs]) family]
          simp)
      (by simp)
      (by intro x hx
          simp only [List.mem_cons] at hx
          rcases hx with rfl | hx
          · exact hg0T
          · rcases List.mem_append.mp hx with hx | hx
            · exact tok_map_head1 hgsT x hx
            · simp only [List.mem_singleton] at hx
              subst hx
              exact hft)
    exact map_self_head_absurd head1 hgs hgsG (shape_tailmap head1 hD)
      (fun _ _ hg hx => goodTok_ne_head1 hg hx)
  -- y7 : first ++ " " ++ joined dotted middle initials ++ " " ++ family
  · have hgs : gs ≠ [] := by intro hc; subst hc; simp at hlen
    have hD := key [g0, (gs.map dotInit).flatten, family]
      (by rw [h]; simp [joinSp])
      (by simp)
      (by intro x hx
          simp only [List.mem_cons, List.not_mem_nil, or_false] at hx
          rcases hx with rfl | rfl | rfl
          exacts [hg0T, tok_flatten (by simp [hgs]) (tok_map_dotInit hgsT), hft])
    have h2 := shape_three hD
    cases gs with
    | nil => exact hgs rfl
    | cons g1 gs2 =>
      cases gs2 with
      | cons a b =>
        have := congrArg List.length h2
        simp at this
      | nil =>
        injection h2 with h3 _
        exact goodTok_ne_dotInit (hgsG g1 (by simp)) (by simpa using h3)
  -- y8 : first ++ " " ++ spaced dotted middle initials ++ " " ++ family
  · have hgs : gs ≠ [] := by intro hc; subst hc; simp at hlen
    have hD := key (g0 :: (gs.map dotInit ++ [family]))
      (by rw [h, joinSp_cons g0 (gs.map dotInit ++ [family]) (by simp),
            joinSp_append_single (gs.map dotInit) (by simp [hgs]) family]
          simp)
      (by simp)
      (by intro x hx
          simp only [List.mem_cons] at hx
          rcases hx with rfl | hx
          · exact hg0T
          · rcases List.mem_append.mp hx with hx | hx
            · exact tok_map_dotInit hgsT x hx
            · simp only [List.mem_singleton] at hx
              subst hx
              exact hft)
    exact map_self_head_absurd dotInit hgs hgsG (shape_tailmap dotInit hD)
      (fun _ _ hg hx => goodTok_ne_dotInit hg hx)
  -- y9 : first initial ++ " " ++ family
  · have hD := key [head1 g0, family] (by rw [h]; simp [joinSp])
      (by simp)
      (by intro x hx
          simp only [List.mem_cons, List.not_mem_nil, or_false] at hx
          rcases hx with rfl | rfl
          exacts [tok_head1 hg0T, hft])
    exact goodTok_ne_head1 hg0G (shape_two hD).1
  -- y10 : first initial ++ ". " ++ family
  · have hD := key [head1 g0 ++ ['.'], family] (by rw [h]; simp [joinSp])
      (by simp)
      (by intro x hx
          simp only [List.mem_cons, List.not_mem_nil, or_false] at hx
          rcases hx with rfl | rfl
          exacts [tok_dotInit hg0T, hft])
    exact goodTok_ne_dotInit hg0G (shape_two hD).1
  -- y11 : joined initials ++ " " ++ family
  · have hD := key [(List.map head1 (g0 :: gs)).flatten, family]
      (by rw [h]; simp [joinSp])
      (by simp)
      (by intro x hx
          simp only [List.mem_cons, List.not_mem_nil, or_false] at hx
          rcases hx with rfl | rfl
          exacts [tok_flatten (by simp) (tok_map_head1 hgt), hft])
    obtain ⟨h1, h2⟩ := shape_two hD
    subst h2
    exact goodTok_ne_head1 hg0G (by simpa using h1)
  -- y12 : spaced initials ++ " " ++ family
  · have hD := key ((g0 :: gs).map head1 ++ [family])
      (by rw [h, joinSp_append_single ((g0 :: gs).map head1) (by simp) family])
      (by simp)
      (by intro x hx
          rcases List.mem_append.mp hx with hx | hx
          · exact tok_map_head1 hgt x hx
          · simp only [List.mem_singleton] at hx
            subst hx
            exact hft)
    exact goodTok_ne_head1 hg0G (shape_map head1 hD)
  -- y13 : joined dotted initials ++ " " ++ family
  · have hD := key [(List.map dotInit (List.map head1 (g0 :: gs))).flatten, family]
      (by rw [h]; simp [joinSp])
      (by simp)
      (by intro x hx
          simp only [List.mem_cons, List.not_mem_nil, or_false] at hx
          rcases hx with rfl | rfl
          exacts [tok_flatten (by simp) (tok_map_dotInit (tok_map_head1 hgt)), hft])
    obtain ⟨h1, h2⟩ := shape_two hD
    subst h2
    exact goodTok_ne_dotInit hg0G (by simpa using h1)
  -- y14 : spaced dotted initials ++ " " ++ family
  · have hD := key (List.map dotInit (List.map head1 (g0 :: gs)) ++ [family])
      (by rw [h, joinSp_append_single (List.map dotInit (List.map head1 (g0 :: gs)))
            (by simp) family])
      (by simp)
      (by intro x hx
          rcases List.mem_append.mp hx with hx | hx
          · exact tok_map_dotInit (tok_map_head1 hgt) x hx
          · simp only [List.mem_singleton] at hx
            subst hx
            exact hft)
    have hD2 : (g0 :: gs) ++ [family] = (g0 :: gs).map (dotInit ∘ head1) ++ [family] := by
      rw [← List.map_map]
      exact hD
    exact goodTok_ne_dotInit hg0G (shape_map (dotInit ∘ head1) hD2)
  -- y15 : family ++ " " ++ joined initials
  · have hD := key [family, (List.map head1 (g0 :: gs)).flatten]
      (by rw [h]; simp [joinSp])
      (by simp)
      (by intro x hx
          simp only [List.mem_cons, List.not_mem_nil, or_false] at hx
          rcases hx with rfl | rfl
          exacts [hft, tok_flatten (by simp) (tok_map_head1 hgt)])
    obtain ⟨h1, h2, h3⟩ := shape_fam_two hD
    subst h2
    exact goodTok_ne_head1 hg0G (by simpa using h1.trans h3)
  -- y16 : family ++ " " ++ joined dotted initials
  · have hD := key [family, (List.map dotInit (List.map head1 (g0 :: gs))).flatten]
      (by rw [h]; simp [joinSp])
      (by simp)
      (by intro x hx
          simp only [List.mem_cons, List.not_mem_nil, or_false] at hx
          rcases hx with rfl | rfl
          exacts [hft, tok_flatten (by simp) (tok_map_dotInit (tok_map_head1 hgt))])
    obtain ⟨h1, h2, h3⟩ := shape_fam_two hD
    subst h2
    exact goodTok_ne_dotInit hg0G (by simpa using h1.trans h3)
  -- y17 : family ++ " " ++ spaced initials
  · have hD := key (family :: (g0 :: gs).map head1)
      (by rw [h, joinSp_cons family ((g0 :: gs).map head1) (by simp)])
      (by simp)
      (by intro x hx
          simp only [List.mem_cons] at hx
          rcases hx with rfl | hx
          exacts [hft, tok_map_head1 hgt x hx])
    obtain ⟨h1, h2⟩ := shape_fam_map head1 hD
    cases gs with
    | nil =>
      injection h2 with h3 _
      exact goodTok_ne_head1 hg0G (h1.trans h3)
    | cons g1 gs2 =>
      rw [List.cons_append, List.map_cons] at h2
      injection h2 with h3 _
      exact goodTok_ne_head1 (hgsG g1 (by simp)) h3
  -- y18 : family ++ " " ++ spaced dotted initials
  · have hD := key (family :: List.map dotInit (List.map head1 (g0 :: gs)))
      (by rw [h, joinSp_cons family (List.map dotInit (List.map head1 (g0 :: gs))) (by simp)])
      (by simp)
      (by intro x hx
          simp only [List.mem_cons] at hx
          rcases hx with rfl | hx
          exacts [hft, tok_map_dotInit (tok_map_head1 hgt) x hx])
    have hD2 : (g0 :: gs) ++ [family] = family :: (g0 :: gs).map (dotInit ∘ head1) := by
      rw [← List.map_map]
      exact hD
    obtain ⟨h1, h2⟩ := shape_fam_map (dotInit ∘ head1) hD2
    cases gs with
    | nil =>
      injection h2 with h3 _
      exact goodTok_ne_dotInit hg0G (h1.trans h3)
    | cons g1 gs2 =>
      rw [List.cons_append, List.map_cons] at h2
      injection h2 with h3 _
      exact goodTok_ne_dotInit (hgsG g1 (by simp)) h3
  -- y19 : family ++ ", " ++ joined initials
  · have hD := key [family ++ [','], (List.map head1 (g0 :: gs)).flatten]
      (by rw [h]; simp [joinSp])
      (by simp)
      (by intro x hx
          simp only [List.mem_cons, List.not_mem_nil, or_false] at hx
          rcases hx with rfl | rfl
          exacts [tok_append_comma hft, tok_flatten (by simp) (tok_map_head1 hgt)])
    exact shape_comma hD hg0G
  -- y20 : family ++ ", " ++ joined dotted initials
  · have hD := key [family ++ [','], (List.map dotInit (List.map head1 (g0 :: gs))).flatten]
      (by rw [h]; simp [joinSp])
      (by simp)
      (by intro x hx
          simp only [List.mem_cons, List.not_mem_nil, or_false] at hx
          rcases hx with rfl | rfl
          exacts [tok_append_comma hft,
            tok_flatten (by simp) (tok_map_dotInit (tok_map_head1 hgt))])
    exact shape_comma hD hg0G
  -- y21 : family ++ ", " ++ spaced initials
  · have hD := key ((family ++ [',']) :: (g0 :: gs).map head1)
      (by rw [h, joinSp_cons (family ++ [',']) ((g0 :: gs).map head1) (by simp)]
          simp)
      (by simp)
      (by intro x hx
          simp only [List.mem_cons] at hx
          rcases hx with rfl | hx
          exacts [tok_append_comma hft, tok_map_head1 hgt x hx])
    exact shape_comma hD hg0G
  -- y22 : family ++ ", " ++ spaced dotted initials
  · have hD := key ((family ++ [',']) :: List.map dotInit (List.map head1 (g0 :: gs)))
      (by rw [h, joinSp_cons (family ++ [','])
            (List.map dotInit (List.map head1 (g0 :: gs))) (by simp)]
          simp)
      (by simp)
      (by intro x hx
          simp only [List.mem_cons] at hx
          rcases hx with rfl | hx
          exacts [tok_append_comma hft, tok_map_dotInit (tok_map_head1 hgt) x hx])
    exact shape_comma hD hg0G
  -- y23 : family ++ " " ++ first initial
  · have hD := key [family, head1 g0]
      (by rw [h]; simp [joinSp])
      (by simp)
      (by intro x hx
          simp only [List.mem_cons, List.not_mem_nil, or_false] at hx
          rcases hx with rfl | rfl
          exacts [hft, tok_head1 hg0T])
    obtain ⟨h1, h2, h3⟩ := shape_fam_two hD
    exact goodTok_ne_head1 hg0G (h1.trans h3)
  -- y24 : family ++ " " ++ first initial ++ "."
  · have hD := key [family, head1 g0 ++ ['.']]
      (by rw [h]; simp [joinSp])
      (by simp)
      (by intro x hx
          simp only [List.mem_cons, List.not_mem_nil, or_false] at hx
          rcases hx with rfl | rfl
          exacts [hft, tok_dotInit hg0T])
    obtain ⟨h1, h2, h3⟩ := shape_fam_two hD
    exact goodTok_ne_dotInit hg0G (h1.trans h3)
  -- y25 : family ++ ", " ++ first initial ++ "."
  · have hD := key [family ++ [','], head1 g0 ++ ['.']]
      (by rw [h]; simp [joinSp])
      (by simp)
      (by intro x hx
          simp only [List.mem_cons, List.not_mem_nil, or_false] at hx
          rcases hx with rfl | rfl
          exacts [tok_append_comma hft, tok_dotInit hg0T])
    exact shape_comma hD hg0G
  -- y26 : family ++ ", " ++ first initial
  · have hD := key [family ++ [','], head1 g0]
      (by rw [h]; simp [joinSp])
      (by simp)
      (by intro x hx
          simp only [List.mem_cons, List.not_mem_nil, or_false] at hx
          rcases hx with rfl | rfl
          exacts [tok_append_comma hft, tok_head1 hg0T])
    exact shape_comma hD hg0G

/-- C2 counterexample: the synonym generator applied to `"J Smith"`
produces output that contains the input string itself (the bare-initial
given name defeats the exclusion). -/
theorem name_to_synonyms_self_cex :
    (name_to_synonyms "J Smith".data).getD [] ≠ [] ∧
    "J Smith".data ∈ (name_to_synonyms "J Smith".data).getD [] := by
  refine ⟨by decide, by decide⟩

/-- C2 (amended): whenever the generator produces output and every
given-name token of the input has at least two characters, is not a
single character followed by a period and contains no comma, the output
never contains the input string. -/
theorem name_to_synonyms_not_self (n : Str) (l : List Str)
    (hsome : name_to_synonyms n = some l)
    (hgood : ∀ g ∈ (splitWs n).dropLast, GoodTok g) :
    n ∉ l := by
  unfold name_to_synonyms at hsome
  cases hsp : splitWs n with
  | nil =>
    rw [hsp] at hsome
    exact absurd hsome (by simp)
  | cons t ts =>
    rw [hsp] at hsome
    simp only at hsome
    split at hsome
    · injection hsome with hl
      subst hl
      simp
    · rename_i hdl
      injection hsome with hl
      subst hl
      obtain ⟨g0, gs, hgv⟩ : ∃ g0 gs, (t :: ts).dropLast = g0 :: gs := by
        cases hc : (t :: ts).dropLast with
        | nil => exact absurd hc hdl
        | cons a b => exact ⟨a, b, rfl⟩
      have hfull : (t :: ts).dropLast ++ [(t :: ts).getLast (List.cons_ne_nil t ts)] =
          t :: ts := List.dropLast_append_getLast _
      have htok : ∀ x ∈ t :: ts, Tok x := by
        rw [← hsp]
        exact splitWs_tok n
      rw [hgv]
      refine synList_not_self g0 gs _ ?_ ?_ ?_ n ?_
      · intro g hg
        apply htok
        rw [← hfull, hgv]
        exact List.mem_append_left _ hg
      · apply htok
        exact List.getLast_mem _
      · intro g hg
        apply hgood
        rw [hsp, hgv]
        exact hg
      · rw [hsp, ← hgv]
        exact hfull.symm

/-- C2 witness: the amended claim applied to `"Jane Doe"`, whose given
token is good, so the generated variants never contain the input. -/
theorem name_to_synonyms_not_self_witness :
    "Jane Doe".data ∉ (name_to_synonyms "Jane Doe".data).getD [] :=
  name_to_synonyms_not_self "Jane Doe".data
    ((name_to_synonyms "Jane Doe".data).getD []) rfl (by decide)

end Orcid
